import Mathlib

/-!
Verification of the synthetic e-commerce data pipeline
(generate_data.py and ingest_to_sqlite.py).

Modelling conventions, chosen to mirror the Python source:

* Randomness.  The Python code draws from the global `random` module.  Each
  draw site is modelled by an oracle function supplied in an `Rng` record;
  a draw that Python performs as `random.xxx(...)` becomes a deterministic
  function of the oracle value reduced into the required range.  Python
  calls that can raise (choice on an empty sequence, `randint(a, b)` with
  `b < a`, `sample` with `k` beyond the population, a dict key miss) are
  modelled as `Option` returning `none` exactly in those situations.
* Money.  Prices are produced by `round(random.uniform(5.0, 500.0), 2)`,
  i.e. a two-decimal value in [5, 500]; they are modelled as rationals of
  the form cents / 100 with cents uniform in [500, 50000].  `round(x, 2)`
  is modelled by `round2` below.
* Timestamps.  `datetime` values are modelled as integer seconds;
  `timedelta(days = d)` is `86400 * d`.  The code stores timestamps as
  ISO strings and re-parses them with `datetime.fromisoformat`, which is
  the identity on the stored (second-precision) value, so the string
  round-trip is elided and `order_date` is carried as the integer itself.
-/

namespace Ecom

/-- Record produced by `generate_customers` (dataclass Customer). -/
structure Customer where
  customer_id : ℕ
  name : String
  email : String
  country : String
  created_at : ℤ
  deriving DecidableEq, Repr

/-- Record produced by `generate_products` (dataclass Product). -/
structure Product where
  product_id : ℕ
  name : String
  category : String
  price : ℚ
  deriving DecidableEq, Repr

/-- Record produced by `generate_orders` (dataclass Order). -/
structure Order where
  order_id : ℕ
  customer_id : ℕ
  order_date : ℤ
  status : String
  deriving DecidableEq, Repr

/-- Record produced by `generate_order_items` (dataclass OrderItem). -/
structure OrderItem where
  order_item_id : ℕ
  order_id : ℕ
  product_id : ℕ
  quantity : ℕ
  unit_price : ℚ
  deriving DecidableEq, Repr

/-- Record produced by `generate_payments` (dataclass Payment). -/
structure Payment where
  payment_id : ℕ
  order_id : ℕ
  amount : ℚ
  payment_method : String
  payment_date : ℤ
  deriving DecidableEq, Repr

/-- Oracle record standing for the global pseudo-random source and Faker.
Each field feeds one draw site of generate_data.py. -/
structure Rng where
  custName : ℕ → String
  custEmail : ℕ → String
  custCountry : ℕ → String
  custDate : ℕ → ℤ
  prodWord : ℕ → String
  prodCat : ℕ → ℕ
  prodPrice : ℕ → ℕ
  ordCust : ℕ → ℕ
  ordDays : ℕ → ℕ
  ordStatus : ℕ → ℕ
  itemNum : ℕ → ℕ
  itemSample : ℕ → ℕ → ℕ
  itemQty : ℕ → ℕ
  payDays : ℕ → ℕ
  payMethod : ℕ → ℕ

/-- Configured generation counts (module constants NUM_CUSTOMERS,
NUM_PRODUCTS, NUM_ORDERS, MAX_ITEMS_PER_ORDER of generate_data.py). -/
structure Config where
  num_customers : ℕ
  num_products : ℕ
  num_orders : ℕ
  max_items_per_order : ℕ
  deriving DecidableEq, Repr

/-- Default counts from generate_data.py. -/
def defaultConfig : Config := ⟨100, 50, 300, 5⟩

/-- Model of `random.choice(xs)`: picks an element of `xs`, failing (an
IndexError in Python) exactly when `xs` is empty. -/
def choice (f : ℕ → ℕ) (i : ℕ) (xs : List α) : Option α :=
  xs[f i % xs.length]?

/-- Total variant of `choice` for the constant nonempty pools
(categories, statuses, payment methods). -/
def choiceD (f : ℕ → ℕ) (i : ℕ) (xs : List α) (d : α) : α :=
  (xs[f i % xs.length]?).getD d

/-- Model of `random.randint(lo, hi)`: a value in [lo, hi], failing (a
ValueError in Python) exactly when `hi < lo`. -/
def randint (f : ℕ → ℕ) (i lo hi : ℕ) : Option ℕ :=
  if lo ≤ hi then some (lo + f i % (hi - lo + 1)) else none

/-- Model of `random.sample(xs, k)`: `k` picks at pairwise-distinct
positions, realised by removing each picked position; fails (a ValueError
in Python) exactly when `k` exceeds the population size. -/
def sample (f : ℕ → ℕ) : ℕ → List α → ℕ → Option (List α)
  | _, _, 0 => some []
  | i, xs, Nat.succ k => do
    let x ← xs[f i % xs.length]?
    let rest ← sample f (i + 1) (xs.eraseIdx (f i % xs.length)) k
    pure (x :: rest)

/-- Model of `round(q, 2)` (exact on the whole-cent amounts arising here;
Python rounds half-to-even, which agrees with any round-to-nearest on
non-half inputs). -/
def round2 (q : ℚ) : ℚ := (round (q * 100) : ℤ) / 100

/-- Loop body list of `generate_customers`: ids 1..count, the other
fields drawn from Faker. -/
def generate_customers (g : Rng) (count : ℕ) : List Customer :=
  (List.range' 1 count).map (fun idx =>
    { customer_id := idx
      name := g.custName idx
      email := g.custEmail idx
      country := g.custCountry idx
      created_at := g.custDate idx })

/-- Fixed category pool of `generate_products`. -/
def categories : List String :=
  ["Electronics", "Home", "Clothing", "Sports", "Books", "Toys", "Grocery", "Beauty"]

/-- Model of the product-name suffix trim
`category[:-1] if category.endswith("s") else category`
(the suffix is the single character "s", so the test reads the last
character). -/
def singularize (category : String) : String :=
  if category.data.getLast? = some 's' then ⟨category.data.dropLast⟩ else category

/-- Loop body list of `generate_products`: ids 1..count, category via
`random.choice`, price = round(uniform(5.0, 500.0), 2), modelled as a
whole-cent value in [500, 50000] hundredths. -/
def generate_products (g : Rng) (count : ℕ) : List Product :=
  (List.range' 1 count).map (fun idx =>
    let category := choiceD g.prodCat idx categories ""
    { product_id := idx
      name := g.prodWord idx ++ " " ++ singularize category
      category := category
      price := ((500 + g.prodPrice idx % 49501 : ℕ) : ℚ) / 100 })

/-- Fixed status pool of `generate_orders` (the weighted draw is modelled
as an oracle-indexed pick from the same pool). -/
def statuses : List String :=
  ["pending", "processing", "shipped", "delivered", "cancelled"]

/-- Recursive worker for `generate_orders`: one order per loop index,
customer via `random.choice` (fails on an empty customer list),
order_date = now - days(randint(0, 365)). -/
def genOrdersAux (g : Rng) (now : ℤ) (customers : List Customer) :
    ℕ → ℕ → Option (List Order)
  | _, 0 => some []
  | idx, Nat.succ k => do
    let customer ← choice g.ordCust idx customers
    let rest ← genOrdersAux g now customers (idx + 1) k
    pure ({ order_id := idx
            customer_id := customer.customer_id
            order_date := now - 86400 * ((g.ordDays idx % 366 : ℕ) : ℤ)
            status := choiceD g.ordStatus idx statuses "" } :: rest)

/-- Model of `generate_orders(count, customers)`. -/
def generate_orders (g : Rng) (now : ℤ) (count : ℕ) (customers : List Customer) :
    Option (List Order) :=
  genOrdersAux g now customers 1 count

/-- Model of the dict `product_lookup = {p.product_id: p for p in products}`
indexed at `pid`: a Python dict keeps the last binding of a duplicated key,
hence the search over the reversed list; `none` is a KeyError. -/
def product_lookup (products : List Product) (pid : ℕ) : Option Product :=
  products.reverse.find? (fun p => p.product_id == pid)

/-- Inner loop of `generate_order_items` over the chosen products of one
order: sequential order_item_id, quantity = randint(1, 3), unit price read
back from product_lookup. -/
def genItemsForOrder (g : Rng) (oid : ℕ) (products : List Product) :
    ℕ → List Product → Option (List OrderItem)
  | _, [] => some []
  | nextId, p :: rest => do
    let prod ← product_lookup products p.product_id
    let tail ← genItemsForOrder g oid products (nextId + 1) rest
    pure ({ order_item_id := nextId
            order_id := oid
            product_id := p.product_id
            quantity := 1 + g.itemQty nextId % 3
            unit_price := prod.price } :: tail)

/-- Outer loop of `generate_order_items` over the orders:
num_items = randint(1, max_items_per_order),
chosen = sample(products, min(num_items, len(products))). -/
def genItemsAux (g : Rng) (products : List Product) (maxItems : ℕ) :
    List Order → ℕ → ℕ → Option (List OrderItem)
  | [], _, _ => some []
  | o :: rest, pos, nextId => do
    let num ← randint g.itemNum pos 1 maxItems
    let chosen ← sample (g.itemSample pos) 0 products (min num products.length)
    let items ← genItemsForOrder g o.order_id products nextId chosen
    let tail ← genItemsAux g products maxItems rest (pos + 1) (nextId + items.length)
    pure (items ++ tail)

/-- Model of `generate_order_items(orders, products, max_items_per_order)`. -/
def generate_order_items (g : Rng) (orders : List Order) (products : List Product)
    (maxItems : ℕ) : Option (List OrderItem) :=
  genItemsAux g products maxItems orders 1 1

/-- Fixed method pool of `generate_payments`. -/
def payment_methods : List String :=
  ["card", "paypal", "bank_transfer", "gift_card"]

/-- Model of `items_by_order.get(oid, [])`: the dict grouping in
`generate_payments` preserves input order, so the group of an order id is
the in-order filter of the item list. -/
def items_by_order (items : List OrderItem) (oid : ℕ) : List OrderItem :=
  items.filter (fun it => it.order_id == oid)

/-- Model of `sum(item.quantity * item.unit_price for item in items)`. -/
def order_total (items : List OrderItem) : ℚ :=
  (items.map (fun it => (it.quantity : ℚ) * it.unit_price)).sum

/-- Loop of `generate_payments` over the orders: skip an order whose item
total is zero, otherwise emit one payment with the next sequential id,
amount = round(total, 2), payment_date = order_date + days(randint(0, 5)). -/
def genPaymentsAux (g : Rng) (order_items : List OrderItem) :
    List Order → ℕ → List Payment
  | [], _ => []
  | o :: rest, pid =>
    let items := items_by_order order_items o.order_id
    let total := order_total items
    if total = 0 then genPaymentsAux g order_items rest pid
    else
      { payment_id := pid
        order_id := o.order_id
        amount := round2 total
        payment_method := choiceD g.payMethod pid payment_methods ""
        payment_date := o.order_date + 86400 * ((g.payDays pid % 6 : ℕ) : ℤ) }
      :: genPaymentsAux g order_items rest (pid + 1)

/-- Model of `generate_payments(orders, order_items)`. -/
def generate_payments (g : Rng) (orders : List Order) (order_items : List OrderItem) :
    List Payment :=
  genPaymentsAux g order_items orders 1

/-- The five collections produced by one run of `main`. -/
structure Dataset where
  customers : List Customer
  products : List Product
  orders : List Order
  order_items : List OrderItem
  payments : List Payment
  deriving DecidableEq, Repr

/-- Generation pipeline of `main` in generate_data.py, parametrised by the
configured counts. -/
def generate_all (g : Rng) (now : ℤ) (cfg : Config) : Option Dataset := do
  let customers := generate_customers g cfg.num_customers
  let products := generate_products g cfg.num_products
  let orders ← generate_orders g now cfg.num_orders customers
  let order_items ← generate_order_items g orders products cfg.max_items_per_order
  let payments := generate_payments g orders order_items
  pure ⟨customers, products, orders, order_items, payments⟩

/-- Constant oracle used to instantiate theorems at concrete inputs. -/
def rng0 : Rng :=
  ⟨fun _ => "", fun _ => "", fun _ => "", fun _ => 0, fun _ => "",
   fun _ => 0, fun _ => 0, fun _ => 0, fun _ => 0, fun _ => 0,
   fun _ => 0, fun _ _ => 0, fun _ => 0, fun _ => 0, fun _ => 0⟩

/-- Smallest nondegenerate configuration, used for concrete instantiation. -/
def cfg1 : Config := ⟨1, 1, 1, 1⟩

/-- Value of `generate_all rng0 0 cfg1`, used for concrete instantiation. -/
def ds1 : Dataset :=
  ⟨[⟨1, "", "", "", 0⟩],
   [⟨1, " Electronic", "Electronics", 5⟩],
   [⟨1, 1, 0, "pending"⟩],
   [⟨1, 1, 1, 1, 5⟩],
   [⟨1, 1, 5, "card", 0⟩]⟩

/-! ### CSV cells: the text forms written by `csv.DictWriter` via `str()`
and the coercions `int` / `float` / `str` applied by `load_csv`.

An integer field is written as its decimal numeral (with a leading minus
sign when negative).  The monetary float fields of this pipeline are exact
two-decimal values (see `round2`); such a value is written as a decimal
with two fraction digits and re-read exactly by `float`.  A text field is
written verbatim (`csv` quoting and unquoting compose to the identity and
are elided). -/

/-- Decimal digit character of `d < 10`. -/
def digitChar (d : ℕ) : Char := Char.ofNat (48 + d)

/-- Numeric value of a decimal digit character. -/
def charVal (c : Char) : ℕ := c.toNat - 48

/-- Little-endian decimal digits of `n`, with explicit fuel (the fuel is
always instantiated with `n` itself, which suffices). -/
def natDigitsFuel : ℕ → ℕ → List ℕ
  | 0, _ => []
  | fuel + 1, n => if n = 0 then [] else n % 10 :: natDigitsFuel fuel (n / 10)

/-- Decimal numeral of a natural number, as characters. -/
def natChars (n : ℕ) : List Char :=
  if n = 0 then ['0'] else ((natDigitsFuel n n).map digitChar).reverse

/-- Value of a decimal numeral (model of `int` on the numerals produced
by `natChars`). -/
def parseNatChars (cs : List Char) : ℕ :=
  cs.foldl (fun a c => a * 10 + charVal c) 0

/-- Decimal numeral of an integer (model of `str` on int fields). -/
def intChars (n : ℤ) : List Char :=
  if n < 0 then '-' :: natChars n.natAbs else natChars n.natAbs

/-- Model of the `int` coercion of `load_csv` on signed decimal numerals. -/
def parseIntChars : List Char → ℤ
  | [] => 0
  | c :: cs => if c = '-' then -(parseNatChars cs : ℤ) else (parseNatChars (c :: cs) : ℤ)

/-- Two fraction digits of a cent remainder `r < 100`. -/
def pad2 (r : ℕ) : List Char :=
  if r < 10 then '0' :: natChars r else natChars r

/-- Decimal text of the two-decimal value `c / 100` (model of `str` on the
monetary float fields). -/
def centsChars (c : ℤ) : List Char :=
  if c < 0 then '-' :: (natChars (c.natAbs / 100) ++ '.' :: pad2 (c.natAbs % 100))
  else natChars (c.natAbs / 100) ++ '.' :: pad2 (c.natAbs % 100)

/-- Split a character list at the first decimal point. -/
def splitDot : List Char → List Char × List Char
  | [] => ([], [])
  | c :: rest =>
    if c = '.' then ([], rest)
    else ((c :: (splitDot rest).1), (splitDot rest).2)

/-- Hundredths value of an unsigned decimal with two fraction digits. -/
def centsVal (cs : List Char) : ℤ :=
  ((parseNatChars (splitDot cs).1 * 100 + parseNatChars (splitDot cs).2 : ℕ) : ℤ)

/-- Model of the `float` coercion of `load_csv` on two-decimal text. -/
def parseCentsChars : List Char → ℤ
  | [] => 0
  | c :: cs => if c = '-' then -(centsVal cs) else centsVal (c :: cs)

/-- Scalar cell value of a CSV record field: integer, two-decimal real
(stored in hundredths), or text. -/
inductive Value where
  | vint (n : ℤ)
  | vreal (cents : ℤ)
  | vtext (s : String)
  deriving DecidableEq, Repr

/-- The three scalar coercions used by `main` of ingest_to_sqlite.py. -/
inductive Ty where
  | integer
  | real
  | text
  deriving DecidableEq, Repr

/-- Text form a cell takes in the written CSV file. -/
def render : Value → String
  | .vint n => ⟨intChars n⟩
  | .vreal c => ⟨centsChars c⟩
  | .vtext s => s

/-- Column coercion applied by `load_csv` to a raw cell string. -/
def coerce : Ty → String → Value
  | .integer, s => .vint (parseIntChars s.data)
  | .real, s => .vreal (parseCentsChars s.data)
  | .text, s => .vtext s

/-- Shape discipline: the cell value matches the declared column type. -/
def typedVal : Value → Ty → Bool
  | .vint _, .integer => true
  | .vreal _, .real => true
  | .vtext _, .text => true
  | _, _ => false

/-- Model of `write_csv(path, rows, headers)`: one header row, then for
each record one row of the field values named by the headers, rendered to
text.  A record is the field map `row.__dict__` of a dataclass instance. -/
def write_csv (rows : List (String → Value)) (headers : List String) :
    List (List String) :=
  headers :: rows.map (fun r => headers.map (fun h => render (r h)))

/-- Model of the row dict built by `csv.DictReader` (fieldnames zipped
with a data row; a Python dict keeps the last binding of a duplicated
fieldname, hence the reversed search); `none` is a KeyError. -/
def rowDict (fieldnames row : List String) (key : String) : Option String :=
  ((fieldnames.zip row).reverse).lookup key

/-- Model of the parsing part of `load_csv(conn, path, table, columns,
converters)`: for each data row, the list comprehension
`[converter(raw[column]) for column, converter in zip(columns, converters)]`. -/
def load_csv (file : List (List String)) (columns : List String)
    (converters : List Ty) : Option (List (List Value)) :=
  match file with
  | [] => some []
  | header :: rows =>
    rows.mapM (fun row =>
      (columns.zip converters).mapM (fun ct => (rowDict header row ct.1).map (coerce ct.2)))

/-! ### SQLite import model (ingest_to_sqlite.py).

The destination store is modelled as five row lists.  Foreign-key
enforcement (`PRAGMA foreign_keys = ON` against the schema declared in
`create_tables`) is modelled per inserted batch: `_insert_rows` runs one
`executemany` and commits only afterwards, so a violating row aborts the
batch before the commit and the table keeps its prior contents — an
all-or-nothing batch.  No table references itself, so checks are against
the pre-batch store. -/

/-- The five tables of the SQLite store `ecom.db`. -/
structure DB where
  customers : List Customer
  products : List Product
  orders : List Order
  order_items : List OrderItem
  payments : List Payment
  deriving DecidableEq, Repr

/-- Fresh store produced by `reset_database` + `create_tables`. -/
def emptyDB : DB := ⟨[], [], [], [], []⟩

/-- Failure surfaced by an insert (sqlite3.IntegrityError). -/
inductive DbError where
  | fkViolation
  deriving DecidableEq, Repr

/-- FOREIGN KEY (customer_id) REFERENCES customers of the orders table. -/
def orderFkOk (db : DB) (o : Order) : Bool :=
  db.customers.any (fun c => c.customer_id == o.customer_id)

/-- FOREIGN KEY clauses (order_id, product_id) of the order_items table. -/
def orderItemFkOk (db : DB) (it : OrderItem) : Bool :=
  db.orders.any (fun o => o.order_id == it.order_id) &&
  db.products.any (fun p => p.product_id == it.product_id)

/-- FOREIGN KEY (order_id) REFERENCES orders of the payments table. -/
def paymentFkOk (db : DB) (p : Payment) : Bool :=
  db.orders.any (fun o => o.order_id == p.order_id)

/-- Batch insert into customers (no foreign keys declared). -/
def insert_customers (db : DB) (rows : List Customer) : Except DbError DB :=
  .ok { db with customers := db.customers ++ rows }

/-- Batch insert into products (no foreign keys declared). -/
def insert_products (db : DB) (rows : List Product) : Except DbError DB :=
  .ok { db with products := db.products ++ rows }

/-- Batch insert into orders, checking the customer reference. -/
def insert_orders (db : DB) (rows : List Order) : Except DbError DB :=
  if rows.all (orderFkOk db) then .ok { db with orders := db.orders ++ rows }
  else .error .fkViolation

/-- Batch insert into order_items, checking order and product references. -/
def insert_order_items (db : DB) (rows : List OrderItem) : Except DbError DB :=
  if rows.all (orderItemFkOk db) then
    .ok { db with order_items := db.order_items ++ rows }
  else .error .fkViolation

/-- Batch insert into payments, checking the order reference. -/
def insert_payments (db : DB) (rows : List Payment) : Except DbError DB :=
  if rows.all (paymentFkOk db) then
    .ok { db with payments := db.payments ++ rows }
  else .error .fkViolation

/-- Table load sequence of `main` in ingest_to_sqlite.py: customers,
products, orders, order_items, payments. -/
def load_all (db : DB) (cs : List Customer) (ps : List Product) (os : List Order)
    (its : List OrderItem) (pys : List Payment) : Except DbError DB := do
  let db1 ← insert_customers db cs
  let db2 ← insert_products db1 ps
  let db3 ← insert_orders db2 os
  let db4 ← insert_order_items db3 its
  insert_payments db4 pys

/-- Observable store after attempting a single batch: on failure the
batch rolls back and the store is unchanged. -/
def tryInsert (db : DB) (step : DB → Except DbError DB) : DB × Option DbError :=
  match step db with
  | .ok db2 => (db2, none)
  | .error e => (db, some e)

/-- Concrete uniformly-shaped record used to instantiate the CSV
round-trip at a concrete input. -/
def rec1 : String → Value := fun c =>
  if c = "id" then .vint 7 else if c = "price" then .vreal 1234 else .vtext "ab"

theorem choice_mem {α : Type} {f : ℕ → ℕ} {i : ℕ} {xs : List α} {x : α}
    (h : choice f i xs = some x) : x ∈ xs := by
  rcases List.getElem?_eq_some_iff.mp h with ⟨hlt, rfl⟩
  exact List.getElem_mem hlt

theorem choice_isSome {α : Type} (f : ℕ → ℕ) (i : ℕ) {xs : List α} (h : xs ≠ []) :
    ∃ x, choice f i xs = some x := by
  have hlen : 0 < xs.length := List.length_pos.mpr h
  have hm : f i % xs.length < xs.length := Nat.mod_lt _ hlen
  exact ⟨_, List.getElem?_eq_getElem hm⟩

theorem choiceD_mem {α : Type} (f : ℕ → ℕ) (i : ℕ) {xs : List α} (d : α) (h : xs ≠ []) :
    choiceD f i xs d ∈ xs := by
  have hlen : 0 < xs.length := List.length_pos.mpr h
  have hm : f i % xs.length < xs.length := Nat.mod_lt _ hlen
  unfold choiceD
  rw [List.getElem?_eq_getElem hm]
  exact List.getElem_mem hm

theorem randint_bounds {f : ℕ → ℕ} {i lo hi n : ℕ}
    (h : randint f i lo hi = some n) : lo ≤ n ∧ n ≤ hi := by
  unfold randint at h
  split at h
  · next hle =>
    injection h with h
    subst h
    have := Nat.mod_lt (f i) (show 0 < hi - lo + 1 by omega)
    omega
  · cases h

theorem randint_isSome (f : ℕ → ℕ) (i : ℕ) {lo hi : ℕ} (h : lo ≤ hi) :
    ∃ n, randint f i lo hi = some n :=
  ⟨_, by unfold randint; rw [if_pos h]⟩

theorem randint_none (f : ℕ → ℕ) (i : ℕ) {lo hi : ℕ} (h : hi < lo) :
    randint f i lo hi = none := by
  unfold randint
  rw [if_neg (by omega)]

theorem sample_spec {α : Type} {f : ℕ → ℕ} :
    ∀ {k i : ℕ} {xs l : List α}, sample f i xs k = some l →
      l.length = k ∧ ∀ x ∈ l, x ∈ xs := by
  intro k
  induction k with
  | zero =>
    intro i xs l h
    simp only [sample, Option.some.injEq] at h
    subst h
    simp
  | succ k ih =>
    intro i xs l h
    cases hx : xs[f i % xs.length]? with
    | none => simp [sample, hx] at h
    | some x =>
      cases hrest : sample f (i + 1) (xs.eraseIdx (f i % xs.length)) k with
      | none => simp [sample, hx, hrest] at h
      | some rest =>
        simp [sample, hx, hrest] at h
        subst h
        obtain ⟨hlen, hsub⟩ := ih hrest
        refine ⟨by simp [hlen], ?_⟩
        intro y hy
        rcases List.mem_cons.mp hy with rfl | hy
        · rcases List.getElem?_eq_some_iff.mp hx with ⟨hlt, rfl⟩
          exact List.getElem_mem hlt
        · exact List.eraseIdx_subset _ _ (hsub y hy)

theorem sample_isSome {α : Type} (f : ℕ → ℕ) :
    ∀ {k : ℕ} (i : ℕ) {xs : List α}, k ≤ xs.length →
      ∃ l, sample f i xs k = some l := by
  intro k
  induction k with
  | zero => intro i xs _; exact ⟨[], rfl⟩
  | succ k ih =>
    intro i xs hk
    have hlen : 0 < xs.length := by omega
    have hm : f i % xs.length < xs.length := Nat.mod_lt _ hlen
    have hk2 : k ≤ (xs.eraseIdx (f i % xs.length)).length := by
      rw [List.length_eraseIdx_of_lt hm]
      omega
    obtain ⟨rest, hrest⟩ := ih (i + 1) hk2
    refine ⟨xs[f i % xs.length] :: rest, ?_⟩
    simp [sample, List.getElem?_eq_getElem hm, hrest]

theorem sample_nodup {α : Type} [DecidableEq α] {f : ℕ → ℕ} :
    ∀ {k i : ℕ} {xs l : List α}, xs.Nodup → sample f i xs k = some l →
      l.Nodup := by
  intro k
  induction k with
  | zero =>
    intro i xs l _ h
    simp only [sample, Option.some.injEq] at h
    subst h
    exact List.nodup_nil
  | succ k ih =>
    intro i xs l hnd h
    cases hx : xs[f i % xs.length]? with
    | none => simp [sample, hx] at h
    | some x =>
      cases hrest : sample f (i + 1) (xs.eraseIdx (f i % xs.length)) k with
      | none => simp [sample, hx, hrest] at h
      | some rest =>
        simp [sample, hx, hrest] at h
        subst h
        rcases List.getElem?_eq_some_iff.mp hx with ⟨hlt, rfl⟩
        have hnd2 : (xs.eraseIdx (f i % xs.length)).Nodup :=
          (List.eraseIdx_sublist xs _).nodup hnd
        have hsub := (sample_spec hrest).2
        refine List.nodup_cons.mpr ⟨?_, ih hnd2 hrest⟩
        intro hmem
        have hin : xs[f i % xs.length] ∈ xs.eraseIdx (f i % xs.length) := hsub _ hmem
        rw [← hnd.erase_getElem _ hlt] at hin
        exact ((List.Nodup.mem_erase_iff hnd).mp hin).1 rfl

theorem genOrdersAux_spec {g : Rng} {now : ℤ} {customers : List Customer} :
    ∀ {k idx : ℕ} {os : List Order},
      genOrdersAux g now customers idx k = some os →
      os.map (·.order_id) = List.range' idx k ∧
      ∀ o ∈ os,
        (∃ c ∈ customers, c.customer_id = o.customer_id) ∧
        (∃ d : ℕ, d ≤ 365 ∧ o.order_date = now - 86400 * (d : ℤ)) := by
  intro k
  induction k with
  | zero =>
    intro idx os h
    simp only [genOrdersAux, Option.some.injEq] at h
    subst h
    simp
  | succ k ih =>
    intro idx os h
    cases hc : choice g.ordCust idx customers with
    | none => simp [genOrdersAux, hc] at h
    | some customer =>
      cases hr : genOrdersAux g now customers (idx + 1) k with
      | none => simp [genOrdersAux, hc, hr] at h
      | some rest =>
        simp [genOrdersAux, hc, hr] at h
        subst h
        obtain ⟨hmap, hall⟩ := ih hr
        refine ⟨by simp [List.range'_succ, hmap], ?_⟩
        intro o ho
        rcases List.mem_cons.mp ho with rfl | ho
        · refine ⟨⟨customer, choice_mem hc, rfl⟩, ⟨g.ordDays idx % 366, ?_, rfl⟩⟩
          have := Nat.mod_lt (g.ordDays idx) (show 0 < 366 by omega)
          omega
        · exact hall o ho

theorem genOrdersAux_isSome (g : Rng) (now : ℤ) {customers : List Customer}
    (h : customers ≠ []) :
    ∀ (k idx : ℕ), ∃ os, genOrdersAux g now customers idx k = some os := by
  intro k
  induction k with
  | zero => intro idx; exact ⟨[], rfl⟩
  | succ k ih =>
    intro idx
    obtain ⟨customer, hc⟩ := choice_isSome g.ordCust idx h
    obtain ⟨rest, hr⟩ := ih (idx + 1)
    have hs : (genOrdersAux g now customers idx (k + 1)).isSome := by
      simp [genOrdersAux, hc, hr]
    exact Option.isSome_iff_exists.mp hs

theorem genOrdersAux_empty_none {g : Rng} {now : ℤ} (k idx : ℕ) :
    genOrdersAux g now [] idx (k + 1) = none := by
  simp [genOrdersAux, choice]

theorem product_lookup_spec {products : List Product} {pid : ℕ} {q : Product}
    (h : product_lookup products pid = some q) :
    q ∈ products ∧ q.product_id = pid := by
  unfold product_lookup at h
  have hm := List.mem_of_find?_eq_some h
  have hp := List.find?_some h
  rw [List.mem_reverse] at hm
  exact ⟨hm, by simpa using hp⟩

theorem product_lookup_isSome {products : List Product} {p : Product}
    (h : p ∈ products) :
    ∃ q, product_lookup products p.product_id = some q := by
  have : (products.reverse.find? (fun q => q.product_id == p.product_id)).isSome :=
    List.find?_isSome.mpr ⟨p, List.mem_reverse.mpr h, by simp⟩
  exact Option.isSome_iff_exists.mp this

theorem genItemsForOrder_spec {g : Rng} {oid : ℕ} {products : List Product} :
    ∀ {chosen : List Product} {nextId : ℕ} {items : List OrderItem},
      genItemsForOrder g oid products nextId chosen = some items →
      items.map (·.order_item_id) = List.range' nextId chosen.length ∧
      items.map (·.product_id) = chosen.map (·.product_id) ∧
      ∀ it ∈ items, it.order_id = oid ∧ 1 ≤ it.quantity ∧ it.quantity ≤ 3 ∧
        ∃ p ∈ products, p.product_id = it.product_id ∧ it.unit_price = p.price := by
  intro chosen
  induction chosen with
  | nil =>
    intro nextId items h
    simp only [genItemsForOrder, Option.some.injEq] at h
    subst h
    simp
  | cons p rest ih =>
    intro nextId items h
    cases hl : product_lookup products p.product_id with
    | none => simp [genItemsForOrder, hl] at h
    | some prod =>
      cases ht : genItemsForOrder g oid products (nextId + 1) rest with
      | none => simp [genItemsForOrder, hl, ht] at h
      | some tail =>
        simp [genItemsForOrder, hl, ht] at h
        subst h
        obtain ⟨hids, hpids, hall⟩ := ih ht
        obtain ⟨hmem, hpid⟩ := product_lookup_spec hl
        refine ⟨by simp [List.range'_succ, hids], by simp [hpids], ?_⟩
        intro it hit
        rcases List.mem_cons.mp hit with rfl | hit
        · refine ⟨rfl, ?_, ?_, prod, hmem, hpid, rfl⟩
          · dsimp only
            omega
          · dsimp only
            have := Nat.mod_lt (g.itemQty nextId) (show 0 < 3 by omega)
            omega
        · exact hall it hit

theorem genItemsForOrder_isSome (g : Rng) (oid : ℕ) {products : List Product} :
    ∀ {chosen : List Product} (nextId : ℕ),
      (∀ p ∈ chosen, p ∈ products) →
      ∃ items, genItemsForOrder g oid products nextId chosen = some items := by
  intro chosen
  induction chosen with
  | nil => intro nextId _; exact ⟨[], rfl⟩
  | cons p rest ih =>
    intro nextId hsub
    obtain ⟨q, hq⟩ := product_lookup_isSome (hsub p (List.mem_cons_self p rest))
    obtain ⟨tail, htail⟩ := ih (nextId + 1) (fun x hx => hsub x (List.mem_cons_of_mem _ hx))
    have hs : (genItemsForOrder g oid products nextId (p :: rest)).isSome := by
      simp [genItemsForOrder, hq, htail]
    exact Option.isSome_iff_exists.mp hs

theorem genItemsForOrder_length {g : Rng} {oid : ℕ} {products : List Product}
    {chosen : List Product} {nextId : ℕ} {items : List OrderItem}
    (h : genItemsForOrder g oid products nextId chosen = some items) :
    items.length = chosen.length := by
  have := (genItemsForOrder_spec h).1
  have hlen := congrArg List.length this
  simpa using hlen

theorem genItemsAux_spec {g : Rng} {products : List Product} {maxItems : ℕ} :
    ∀ {orders : List Order} {pos nextId : ℕ} {items : List OrderItem},
      genItemsAux g products maxItems orders pos nextId = some items →
      items.map (·.order_item_id) = List.range' nextId items.length ∧
      ∀ it ∈ items, it.order_id ∈ orders.map (·.order_id) ∧
        1 ≤ it.quantity ∧ it.quantity ≤ 3 ∧
        ∃ p ∈ products, p.product_id = it.product_id ∧ it.unit_price = p.price := by
  intro orders
  induction orders with
  | nil =>
    intro pos nextId items h
    simp only [genItemsAux, Option.some.injEq] at h
    subst h
    simp
  | cons o rest ih =>
    intro pos nextId items h
    cases hn : randint g.itemNum pos 1 maxItems with
    | none => simp [genItemsAux, hn] at h
    | some num =>
      cases hs : sample (g.itemSample pos) 0 products (min num products.length) with
      | none => simp [genItemsAux, hn, hs] at h
      | some chosen =>
        cases hc : genItemsForOrder g o.order_id products nextId chosen with
        | none => simp [genItemsAux, hn, hs, hc] at h
        | some chunk =>
          cases ht : genItemsAux g products maxItems rest (pos + 1) (nextId + chunk.length) with
          | none => simp [genItemsAux, hn, hs, hc, ht] at h
          | some tail =>
            simp [genItemsAux, hn, hs, hc, ht] at h
            subst h
            obtain ⟨hcids, hcpids, hcall⟩ := genItemsForOrder_spec hc
            obtain ⟨htids, htall⟩ := ih ht
            have hclen : chunk.length = chosen.length := by
              simpa using congrArg List.length hcids
            constructor
            · rw [List.map_append, hcids, htids, hclen, List.length_append, hclen,
                Nat.add_comm chosen.length tail.length]
              exact List.range'_append_1 nextId chosen.length tail.length
            · intro it hit
              rcases List.mem_append.mp hit with hit | hit
              · obtain ⟨hoid, hq1, hq2, hp⟩ := hcall it hit
                exact ⟨by simp [hoid], hq1, hq2, hp⟩
              · obtain ⟨hoid, hq1, hq2, hp⟩ := htall it hit
                exact ⟨by simp [List.mem_cons]; right; simpa using hoid, hq1, hq2, hp⟩

theorem genItemsAux_isSome {g : Rng} {products : List Product} {maxItems : ℕ}
    (hmax : 1 ≤ maxItems) :
    ∀ (orders : List Order) (pos nextId : ℕ),
      ∃ items, genItemsAux g products maxItems orders pos nextId = some items := by
  intro orders
  induction orders with
  | nil => intro pos nextId; exact ⟨[], rfl⟩
  | cons o rest ih =>
    intro pos nextId
    obtain ⟨num, hn⟩ := randint_isSome g.itemNum pos hmax
    obtain ⟨chosen, hs⟩ :=
      sample_isSome (g.itemSample pos) 0 (Nat.min_le_right num products.length)
    obtain ⟨chunk, hc⟩ :=
      genItemsForOrder_isSome g o.order_id nextId ((sample_spec hs).2)
    obtain ⟨tail, ht⟩ := ih (pos + 1) (nextId + chunk.length)
    have hs2 : (genItemsAux g products maxItems (o :: rest) pos nextId).isSome := by
      simp [genItemsAux, hn, hs, hc, ht]
    exact Option.isSome_iff_exists.mp hs2

theorem genItemsAux_maxZero_none {g : Rng} {products : List Product}
    (o : Order) (rest : List Order) (pos nextId : ℕ) :
    genItemsAux g products 0 (o :: rest) pos nextId = none := by
  simp [genItemsAux, randint_none g.itemNum pos (show (0 : ℕ) < 1 by omega)]

theorem genItemsAux_noProducts {g : Rng} {maxItems : ℕ} (hmax : 1 ≤ maxItems) :
    ∀ (orders : List Order) (pos nextId : ℕ),
      genItemsAux g [] maxItems orders pos nextId = some [] := by
  intro orders
  induction orders with
  | nil => intro pos nextId; rfl
  | cons o rest ih =>
    intro pos nextId
    obtain ⟨num, hn⟩ := randint_isSome g.itemNum pos hmax
    simp [genItemsAux, hn, show sample (g.itemSample pos) 0 ([] : List Product) 0 = some [] from rfl,
      show genItemsForOrder g o.order_id [] nextId [] = some [] from rfl, ih]

theorem genItemsAux_chunks {g : Rng} {products : List Product} {maxItems : ℕ} :
    ∀ {orders : List Order} {pos nextId : ℕ} {items : List OrderItem},
      (orders.map (·.order_id)).Nodup →
      genItemsAux g products maxItems orders pos nextId = some items →
      ∀ o ∈ orders, ∃ pos2 num chosen nextId2 chunk,
        randint g.itemNum pos2 1 maxItems = some num ∧
        sample (g.itemSample pos2) 0 products (min num products.length) = some chosen ∧
        genItemsForOrder g o.order_id products nextId2 chosen = some chunk ∧
        items_by_order items o.order_id = chunk := by
  intro orders
  induction orders with
  | nil => intro pos nextId items _ _ o ho; cases ho
  | cons o rest ih =>
    intro pos nextId items hnd h
    cases hn : randint g.itemNum pos 1 maxItems with
    | none => simp [genItemsAux, hn] at h
    | some num =>
      cases hs : sample (g.itemSample pos) 0 products (min num products.length) with
      | none => simp [genItemsAux, hn, hs] at h
      | some chosen =>
        cases hc : genItemsForOrder g o.order_id products nextId chosen with
        | none => simp [genItemsAux, hn, hs, hc] at h
        | some chunk =>
          cases ht : genItemsAux g products maxItems rest (pos + 1) (nextId + chunk.length) with
          | none => simp [genItemsAux, hn, hs, hc, ht] at h
          | some tail =>
            simp [genItemsAux, hn, hs, hc, ht] at h
            subst h
            have hndrest : (rest.map (·.order_id)).Nodup := (List.nodup_cons.mp (by simpa using hnd)).2
            have hhead : o.order_id ∉ rest.map (·.order_id) := (List.nodup_cons.mp (by simpa using hnd)).1
            intro o2 ho2
            rcases List.mem_cons.mp ho2 with rfl | ho2
            · refine ⟨pos, num, chosen, nextId, chunk, hn, hs, hc, ?_⟩
              unfold items_by_order
              rw [List.filter_append]
              have h1 : chunk.filter (fun it => it.order_id == o2.order_id) = chunk :=
                List.filter_eq_self.mpr (fun it hit => by
                  simp [((genItemsForOrder_spec hc).2.2 it hit).1])
              have h2 : tail.filter (fun it => it.order_id == o2.order_id) = [] :=
                List.filter_eq_nil_iff.mpr (fun it hit => by
                  have := ((genItemsAux_spec ht).2 it hit).1
                  simp only [beq_iff_eq]
                  intro heq
                  rw [heq] at this
                  exact hhead this)
              rw [h1, h2, List.append_nil]
            · obtain ⟨pos2, num2, chosen2, nextId2, chunk2, hn2, hs2, hc2, hib⟩ :=
                ih hndrest ht o2 ho2
              refine ⟨pos2, num2, chosen2, nextId2, chunk2, hn2, hs2, hc2, ?_⟩
              unfold items_by_order at hib ⊢
              rw [List.filter_append]
              have h1 : chunk.filter (fun it => it.order_id == o2.order_id) = [] :=
                List.filter_eq_nil_iff.mpr (fun it hit => by
                  have hoid := ((genItemsForOrder_spec hc).2.2 it hit).1
                  simp only [beq_iff_eq]
                  intro heq
                  rw [hoid] at heq
                  apply hhead
                  rw [heq]
                  exact List.mem_map_of_mem _ ho2)
              rw [h1, List.nil_append, hib]

theorem genPaymentsAux_ids {g : Rng} {order_items : List OrderItem} :
    ∀ (orders : List Order) (pid : ℕ),
      (genPaymentsAux g order_items orders pid).map (·.payment_id) =
        List.range' pid (genPaymentsAux g order_items orders pid).length := by
  intro orders
  induction orders with
  | nil => intro pid; rfl
  | cons o rest ih =>
    intro pid
    by_cases h0 : order_total (items_by_order order_items o.order_id) = 0
    · simp only [genPaymentsAux, h0, if_pos]
      exact ih pid
    · simp only [genPaymentsAux, if_neg h0, List.map_cons, List.length_cons]
      rw [ih (pid + 1), List.range'_succ]

theorem genPaymentsAux_mem {g : Rng} {order_items : List OrderItem} :
    ∀ {orders : List Order} {pid : ℕ} {p : Payment},
      p ∈ genPaymentsAux g order_items orders pid →
      ∃ o ∈ orders, o.order_id = p.order_id ∧
        order_total (items_by_order order_items o.order_id) ≠ 0 ∧
        p.amount = round2 (order_total (items_by_order order_items o.order_id)) ∧
        ∃ d : ℕ, d ≤ 5 ∧ p.payment_date = o.order_date + 86400 * (d : ℤ) := by
  intro orders
  induction orders with
  | nil => intro pid p hp; cases hp
  | cons o rest ih =>
    intro pid p hp
    by_cases h0 : order_total (items_by_order order_items o.order_id) = 0
    · simp only [genPaymentsAux, h0, if_pos] at hp
      obtain ⟨o2, ho2, hrest⟩ := ih hp
      exact ⟨o2, List.mem_cons_of_mem _ ho2, hrest⟩
    · simp only [genPaymentsAux, if_neg h0] at hp
      rcases List.mem_cons.mp hp with rfl | hp
      · refine ⟨o, List.mem_cons_self o rest, rfl, h0, rfl, g.payDays pid % 6, ?_, rfl⟩
        have := Nat.mod_lt (g.payDays pid) (show 0 < 6 by omega)
        omega
      · obtain ⟨o2, ho2, hrest⟩ := ih hp
        exact ⟨o2, List.mem_cons_of_mem _ ho2, hrest⟩

theorem genPaymentsAux_exists {g : Rng} {order_items : List OrderItem} :
    ∀ {orders : List Order} (pid : ℕ) {o : Order}, o ∈ orders →
      order_total (items_by_order order_items o.order_id) ≠ 0 →
      ∃ p ∈ genPaymentsAux g order_items orders pid, p.order_id = o.order_id := by
  intro orders
  induction orders with
  | nil => intro pid o ho; cases ho
  | cons o2 rest ih =>
    intro pid o ho hne
    rcases List.mem_cons.mp ho with rfl | ho
    · simp only [genPaymentsAux, if_neg hne]
      exact ⟨_, List.mem_cons_self _ _, rfl⟩
    · by_cases h0 : order_total (items_by_order order_items o2.order_id) = 0
      · simp only [genPaymentsAux, h0, if_pos]
        exact ih pid ho hne
      · simp only [genPaymentsAux, if_neg h0]
        obtain ⟨p, hp, hpid⟩ := ih (pid + 1) ho hne
        exact ⟨p, List.mem_cons_of_mem _ hp, hpid⟩

theorem genPaymentsAux_all {g : Rng} {order_items : List OrderItem} :
    ∀ {orders : List Order} (pid : ℕ),
      (∀ o ∈ orders, order_total (items_by_order order_items o.order_id) ≠ 0) →
      (genPaymentsAux g order_items orders pid).map (·.order_id) =
        orders.map (·.order_id) := by
  intro orders
  induction orders with
  | nil => intro pid _; rfl
  | cons o rest ih =>
    intro pid hall
    have hne := hall o (List.mem_cons_self o rest)
    simp only [genPaymentsAux, if_neg hne, List.map_cons]
    rw [ih (pid + 1) (fun o2 ho2 => hall o2 (List.mem_cons_of_mem _ ho2))]

theorem genPaymentsAux_noItems {g : Rng} :
    ∀ (orders : List Order) (pid : ℕ), genPaymentsAux g [] orders pid = [] := by
  intro orders
  induction orders with
  | nil => intro pid; rfl
  | cons o rest ih =>
    intro pid
    have h0 : order_total (items_by_order [] o.order_id) = 0 := rfl
    simp only [genPaymentsAux, h0, if_pos]
    exact ih pid

theorem generate_customers_ids (g : Rng) (count : ℕ) :
    (generate_customers g count).map (·.customer_id) = List.range' 1 count := by
  unfold generate_customers
  rw [List.map_map]
  exact List.map_id _

theorem generate_products_ids (g : Rng) (count : ℕ) :
    (generate_products g count).map (·.product_id) = List.range' 1 count := by
  unfold generate_products
  rw [List.map_map]
  exact List.map_id _

theorem generate_products_price {g : Rng} {count : ℕ} {p : Product}
    (hp : p ∈ generate_products g count) :
    ∃ c : ℕ, 500 ≤ c ∧ c ≤ 50000 ∧ p.price = (c : ℚ) / 100 := by
  unfold generate_products at hp
  obtain ⟨idx, _, rfl⟩ := List.mem_map.mp hp
  refine ⟨500 + g.prodPrice idx % 49501, by omega, ?_, rfl⟩
  have := Nat.mod_lt (g.prodPrice idx) (show 0 < 49501 by omega)
  omega

theorem cents_price_bounds {c : ℕ} (h1 : 500 ≤ c) (h2 : c ≤ 50000) :
    (5 : ℚ) ≤ (c : ℚ) / 100 ∧ (c : ℚ) / 100 ≤ 500 := by
  constructor
  · rw [le_div_iff₀ (by norm_num : (0 : ℚ) < 100)]
    norm_num
    exact_mod_cast h1
  · rw [div_le_iff₀ (by norm_num : (0 : ℚ) < 100)]
    norm_num
    exact_mod_cast h2

theorem order_total_cents (items : List OrderItem)
    (h : ∀ it ∈ items, ∃ c : ℕ, it.unit_price = (c : ℚ) / 100) :
    ∃ k : ℕ, order_total items = (k : ℚ) / 100 := by
  induction items with
  | nil => exact ⟨0, by simp [order_total]⟩
  | cons it rest ih =>
    obtain ⟨k, hk⟩ := ih (fun x hx => h x (List.mem_cons_of_mem _ hx))
    obtain ⟨c, hc⟩ := h it (List.mem_cons_self it rest)
    refine ⟨it.quantity * c + k, ?_⟩
    unfold order_total at hk ⊢
    rw [List.map_cons, List.sum_cons, hk, hc]
    push_cast
    ring

theorem round2_cents (k : ℕ) : round2 ((k : ℚ) / 100) = (k : ℚ) / 100 := by
  unfold round2
  rw [div_mul_cancel₀ _ (by norm_num : (100 : ℚ) ≠ 0)]
  rw [round_natCast]
  push_cast
  rfl

theorem order_total_pos {items : List OrderItem} (hne : items ≠ [])
    (h : ∀ it ∈ items, 1 ≤ it.quantity ∧ 5 ≤ it.unit_price) :
    0 < order_total items := by
  unfold order_total
  apply List.sum_pos
  · intro x hx
    obtain ⟨it, hit, rfl⟩ := List.mem_map.mp hx
    obtain ⟨hq, hp⟩ := h it hit
    have hq1 : (1 : ℚ) ≤ (it.quantity : ℚ) := by exact_mod_cast hq
    nlinarith
  · simpa using hne

theorem generate_all_spec {g : Rng} {now : ℤ} {cfg : Config} {ds : Dataset}
    (h : generate_all g now cfg = some ds) :
    ds.customers = generate_customers g cfg.num_customers ∧
    ds.products = generate_products g cfg.num_products ∧
    generate_orders g now cfg.num_orders ds.customers = some ds.orders ∧
    generate_order_items g ds.orders ds.products cfg.max_items_per_order =
      some ds.order_items ∧
    ds.payments = generate_payments g ds.orders ds.order_items := by
  cases ho : generate_orders g now cfg.num_orders (generate_customers g cfg.num_customers) with
  | none => simp [generate_all, ho] at h
  | some os =>
    cases hi : generate_order_items g os (generate_products g cfg.num_products)
        cfg.max_items_per_order with
    | none => simp [generate_all, ho, hi] at h
    | some its =>
      simp [generate_all, ho, hi] at h
      subst h
      exact ⟨rfl, rfl, ho, hi, rfl⟩

/-- C6: for every generated product, its price lies in the closed interval
[5.00, 500.00] and is a value with exactly two decimal places (an integer
number of hundredths). -/
theorem product_price_range (g : Rng) (count : ℕ) (p : Product)
    (hp : p ∈ generate_products g count) :
    5 ≤ p.price ∧ p.price ≤ 500 ∧ ∃ c : ℕ, p.price = (c : ℚ) / 100 := by
  obtain ⟨c, h1, h2, h3⟩ := generate_products_price hp
  obtain ⟨b1, b2⟩ := cents_price_bounds h1 h2
  exact ⟨h3 ▸ b1, h3 ▸ b2, c, h3⟩

/-- Witness for `product_price_range` at the single product generated by
the constant oracle. -/
theorem product_price_range_witness :
    5 ≤ (⟨1, " Electronic", "Electronics", 5⟩ : Product).price ∧
    (⟨1, " Electronic", "Electronics", 5⟩ : Product).price ≤ 500 ∧
    ∃ c : ℕ, (⟨1, " Electronic", "Electronics", 5⟩ : Product).price = (c : ℚ) / 100 :=
  product_price_range rng0 1 _ (by with_unfolding_all decide)

/-- C5: ids are unique and sequential in every generated collection: the
k-th customer, product and order carry id k starting from 1, order item
ids run 1,2,... across all items in generation order, and payment ids run
1,2,... across all emitted payments in order of their orders. -/
theorem sequential_ids (g : Rng) (now : ℤ) (cfg : Config) (ds : Dataset)
    (h : generate_all g now cfg = some ds) :
    ds.customers.map (·.customer_id) = List.range' 1 cfg.num_customers ∧
    ds.products.map (·.product_id) = List.range' 1 cfg.num_products ∧
    ds.orders.map (·.order_id) = List.range' 1 cfg.num_orders ∧
    ds.order_items.map (·.order_item_id) = List.range' 1 ds.order_items.length ∧
    ds.payments.map (·.payment_id) = List.range' 1 ds.payments.length := by
  obtain ⟨hc, hp, ho, hi, hpay⟩ := generate_all_spec h
  refine ⟨?_, ?_, ?_, ?_, ?_⟩
  · rw [hc, generate_customers_ids]
  · rw [hp, generate_products_ids]
  · exact (genOrdersAux_spec ho).1
  · exact (genItemsAux_spec hi).1
  · rw [hpay]
    unfold generate_payments
    exact genPaymentsAux_ids _ 1

/-- Witness for `sequential_ids` at the smallest nondegenerate run. -/
theorem sequential_ids_witness :
    ds1.customers.map (·.customer_id) = List.range' 1 cfg1.num_customers ∧
    ds1.products.map (·.product_id) = List.range' 1 cfg1.num_products ∧
    ds1.orders.map (·.order_id) = List.range' 1 cfg1.num_orders ∧
    ds1.order_items.map (·.order_item_id) = List.range' 1 ds1.order_items.length ∧
    ds1.payments.map (·.payment_id) = List.range' 1 ds1.payments.length :=
  sequential_ids rng0 0 cfg1 ds1 (by with_unfolding_all decide)

/-- C2: every foreign reference of a generated collection resolves to a
generated entity: each order references a generated customer, each order
item a generated order and product, each payment a generated order. -/
theorem foreign_refs (g : Rng) (now : ℤ) (cfg : Config) (ds : Dataset)
    (h : generate_all g now cfg = some ds) :
    (∀ o ∈ ds.orders, ∃ c ∈ ds.customers, c.customer_id = o.customer_id) ∧
    (∀ it ∈ ds.order_items,
      (∃ o ∈ ds.orders, o.order_id = it.order_id) ∧
      (∃ p ∈ ds.products, p.product_id = it.product_id)) ∧
    (∀ py ∈ ds.payments, ∃ o ∈ ds.orders, o.order_id = py.order_id) := by
  obtain ⟨hc, hp, ho, hi, hpay⟩ := generate_all_spec h
  refine ⟨?_, ?_, ?_⟩
  · intro o hoo
    exact ((genOrdersAux_spec ho).2 o hoo).1
  · intro it hit
    obtain ⟨hoid, _, _, p, hpmem, hpid, _⟩ := (genItemsAux_spec hi).2 it hit
    obtain ⟨o, hom, hoe⟩ := List.mem_map.mp hoid
    exact ⟨⟨o, hom, hoe⟩, ⟨p, hpmem, hpid⟩⟩
  · intro py hpy
    rw [hpay] at hpy
    obtain ⟨o, hom, hoe, _⟩ := genPaymentsAux_mem hpy
    exact ⟨o, hom, hoe⟩

/-- Witness for `foreign_refs` at the smallest nondegenerate run. -/
theorem foreign_refs_witness :
    (∀ o ∈ ds1.orders, ∃ c ∈ ds1.customers, c.customer_id = o.customer_id) ∧
    (∀ it ∈ ds1.order_items,
      (∃ o ∈ ds1.orders, o.order_id = it.order_id) ∧
      (∃ p ∈ ds1.products, p.product_id = it.product_id)) ∧
    (∀ py ∈ ds1.payments, ∃ o ∈ ds1.orders, o.order_id = py.order_id) :=
  foreign_refs rng0 0 cfg1 ds1 (by with_unfolding_all decide)

/-- C7: every generated payment is dated on or after the order date of its
referenced order and at most five whole days after it. -/
theorem payment_date_offset (g : Rng) (now : ℤ) (cfg : Config) (ds : Dataset)
    (h : generate_all g now cfg = some ds) :
    ∀ py ∈ ds.payments, ∃ o ∈ ds.orders, o.order_id = py.order_id ∧
      o.order_date ≤ py.payment_date ∧
      py.payment_date ≤ o.order_date + 5 * 86400 := by
  obtain ⟨_, _, _, _, hpay⟩ := generate_all_spec h
  intro py hpy
  rw [hpay] at hpy
  obtain ⟨o, hom, hoe, _, _, d, hd, hdate⟩ := genPaymentsAux_mem hpy
  refine ⟨o, hom, hoe, ?_, ?_⟩
  · rw [hdate]
    have : (0 : ℤ) ≤ 86400 * (d : ℤ) := by positivity
    omega
  · rw [hdate]
    have : (d : ℤ) ≤ 5 := by exact_mod_cast hd
    nlinarith

/-- Witness for `payment_date_offset` at the one payment of the smallest
nondegenerate run. -/
theorem payment_date_offset_witness :
    ∃ o ∈ ds1.orders, o.order_id = (⟨1, 1, 5, "card", 0⟩ : Payment).order_id ∧
      o.order_date ≤ (⟨1, 1, 5, "card", 0⟩ : Payment).payment_date ∧
      (⟨1, 1, 5, "card", 0⟩ : Payment).payment_date ≤ o.order_date + 5 * 86400 :=
  payment_date_offset rng0 0 cfg1 ds1 (by with_unfolding_all decide)
    ⟨1, 1, 5, "card", 0⟩ (by with_unfolding_all decide)

theorem order_total_round_trivial {g : Rng} {now : ℤ} {cfg : Config} {ds : Dataset}
    (h : generate_all g now cfg = some ds) (oid : ℕ) :
    round2 (order_total (items_by_order ds.order_items oid)) =
      order_total (items_by_order ds.order_items oid) := by
  obtain ⟨_, hp, _, hi, _⟩ := generate_all_spec h
  obtain ⟨k, hk⟩ := order_total_cents (items_by_order ds.order_items oid)
    (fun it hit => by
      obtain ⟨_, _, _, p, hpmem, _, hprice⟩ :=
        (genItemsAux_spec hi).2 it (List.mem_of_mem_filter hit)
      rw [hp] at hpmem
      obtain ⟨c, _, _, hcp⟩ := generate_products_price hpmem
      exact ⟨c, by rw [hprice, hcp]⟩)
  rw [hk, round2_cents]

/-- C1: a generated payment carries exactly the sum over its order items of
quantity times unit price (the stored rounded amount equals the exact sum,
a whole number of cents), and a payment for an order exists exactly when
that sum is nonzero. -/
theorem payment_amount_total (g : Rng) (now : ℤ) (cfg : Config) (ds : Dataset)
    (h : generate_all g now cfg = some ds) :
    (∀ py ∈ ds.payments,
      py.amount = order_total (items_by_order ds.order_items py.order_id)) ∧
    (∀ o ∈ ds.orders,
      ((∃ py ∈ ds.payments, py.order_id = o.order_id) ↔
        order_total (items_by_order ds.order_items o.order_id) ≠ 0)) := by
  obtain ⟨hc, hp, ho, hi, hpay⟩ := generate_all_spec h
  constructor
  · intro py hpy
    rw [hpay] at hpy
    obtain ⟨o, _, hoe, _, hamt2, _⟩ := genPaymentsAux_mem hpy
    rw [hamt2, ← hoe, order_total_round_trivial h]
  · intro o hoo
    constructor
    · rintro ⟨py, hpy, hpid⟩
      rw [hpay] at hpy
      obtain ⟨o2, _, hoe2, hne2, _⟩ := genPaymentsAux_mem hpy
      rw [hoe2, hpid] at hne2
      exact hne2
    · intro hne
      rw [hpay]
      unfold generate_payments
      exact genPaymentsAux_exists 1 hoo hne

/-- Witness for `payment_amount_total` at the smallest nondegenerate run. -/
theorem payment_amount_total_witness :
    (∀ py ∈ ds1.payments,
      py.amount = order_total (items_by_order ds1.order_items py.order_id)) ∧
    (∀ o ∈ ds1.orders,
      ((∃ py ∈ ds1.payments, py.order_id = o.order_id) ↔
        order_total (items_by_order ds1.order_items o.order_id) ≠ 0)) :=
  payment_amount_total rng0 0 cfg1 ds1 (by with_unfolding_all decide)

theorem per_order_items {g : Rng} {now : ℤ} {cfg : Config} {ds : Dataset}
    (h : generate_all g now cfg = some ds) (hprod : ds.products ≠ []) :
    ∀ o ∈ ds.orders,
      1 ≤ (items_by_order ds.order_items o.order_id).length ∧
      (items_by_order ds.order_items o.order_id).length ≤
        min cfg.max_items_per_order ds.products.length ∧
      ((items_by_order ds.order_items o.order_id).map (·.product_id)).Nodup ∧
      ∀ it ∈ items_by_order ds.order_items o.order_id,
        1 ≤ it.quantity ∧ it.quantity ≤ 3 ∧
        ∃ p ∈ ds.products, p.product_id = it.product_id ∧ it.unit_price = p.price := by
  obtain ⟨hc, hp, ho, hi, hpay⟩ := generate_all_spec h
  have hnd : (ds.orders.map (·.order_id)).Nodup := by
    rw [(genOrdersAux_spec ho).1]
    exact List.nodup_range' 1 cfg.num_orders
  have hpidnd : (ds.products.map (·.product_id)).Nodup := by
    rw [hp, generate_products_ids]
    exact List.nodup_range' 1 cfg.num_products
  have hprodnd : ds.products.Nodup := hpidnd.of_map
  have hplen : 1 ≤ ds.products.length := List.length_pos.mpr hprod
  intro o hoo
  obtain ⟨pos2, num, chosen, nextId2, chunk, hn, hs, hcho, hib⟩ :=
    genItemsAux_chunks hnd hi o hoo
  obtain ⟨hnum1, hnum2⟩ := randint_bounds hn
  obtain ⟨hchlen, hchsub⟩ := sample_spec hs
  have hchnd : chosen.Nodup := sample_nodup hprodnd hs
  obtain ⟨hcids, hcpids, hcall⟩ := genItemsForOrder_spec hcho
  have hlen : chunk.length = chosen.length := genItemsForOrder_length hcho
  rw [hib]
  refine ⟨?_, ?_, ?_, ?_⟩
  · rw [hlen, hchlen]
    exact le_min hnum1 hplen
  · rw [hlen, hchlen]
    exact min_le_min hnum2 (le_refl _)
  · rw [hcpids]
    exact hchnd.map_on (fun x hx y hy hxy =>
      List.inj_on_of_nodup_map hpidnd (hchsub x hx) (hchsub y hy) hxy)
  · intro it hit
    exact (hcall it hit).2

/-- C3: in a run with at least one product, each order carries between 1
and min(max_items_per_order, number of products) order items, referencing
pairwise-distinct products, each with quantity in [1, 3] and unit price
equal to the price of the referenced generated product. -/
theorem order_items_shape (g : Rng) (now : ℤ) (cfg : Config) (ds : Dataset)
    (h : generate_all g now cfg = some ds) (hprod : ds.products ≠ []) :
    ∀ o ∈ ds.orders,
      1 ≤ (items_by_order ds.order_items o.order_id).length ∧
      (items_by_order ds.order_items o.order_id).length ≤
        min cfg.max_items_per_order ds.products.length ∧
      ((items_by_order ds.order_items o.order_id).map (·.product_id)).Nodup ∧
      ∀ it ∈ items_by_order ds.order_items o.order_id,
        1 ≤ it.quantity ∧ it.quantity ≤ 3 ∧
        ∃ p ∈ ds.products, p.product_id = it.product_id ∧ it.unit_price = p.price :=
  per_order_items h hprod

/-- Witness for `order_items_shape` at the one order of the smallest
nondegenerate run. -/
theorem order_items_shape_witness :
    1 ≤ (items_by_order ds1.order_items (⟨1, 1, 0, "pending"⟩ : Order).order_id).length ∧
    (items_by_order ds1.order_items (⟨1, 1, 0, "pending"⟩ : Order).order_id).length ≤
      min cfg1.max_items_per_order ds1.products.length ∧
    ((items_by_order ds1.order_items
      (⟨1, 1, 0, "pending"⟩ : Order).order_id).map (·.product_id)).Nodup ∧
    ∀ it ∈ items_by_order ds1.order_items (⟨1, 1, 0, "pending"⟩ : Order).order_id,
      1 ≤ it.quantity ∧ it.quantity ≤ 3 ∧
      ∃ p ∈ ds1.products, p.product_id = it.product_id ∧ it.unit_price = p.price :=
  order_items_shape rng0 0 cfg1 ds1 (by with_unfolding_all decide)
    (by with_unfolding_all decide) ⟨1, 1, 0, "pending"⟩ (by with_unfolding_all decide)

/-- C10 (implicit): with at least one product and max_items_per_order at
least 1, every order gets an item priced at least 5.00, every per-order
total is strictly positive, so exactly one payment is emitted per order in
order-id order, with payment ids 1..number of orders; the zero-total skip
branch is unreachable. -/
theorem payments_one_per_order (g : Rng) (now : ℤ) (cfg : Config) (ds : Dataset)
    (h : generate_all g now cfg = some ds) (hprod : ds.products ≠ [])
    (hmax : 1 ≤ cfg.max_items_per_order) :
    (∀ o ∈ ds.orders,
      ∃ it ∈ items_by_order ds.order_items o.order_id, 5 ≤ it.unit_price) ∧
    (∀ o ∈ ds.orders, 0 < order_total (items_by_order ds.order_items o.order_id)) ∧
    ds.payments.map (·.order_id) = ds.orders.map (·.order_id) ∧
    ds.payments.map (·.payment_id) = List.range' 1 ds.orders.length := by
  obtain ⟨hc, hp, ho, hi, hpay⟩ := generate_all_spec h
  have hstep := per_order_items h hprod
  have hprice : ∀ o ∈ ds.orders, ∀ it ∈ items_by_order ds.order_items o.order_id,
      5 ≤ it.unit_price := by
    intro o hoo it hit
    obtain ⟨_, _, p, hpm, _, hup⟩ := (hstep o hoo).2.2.2 it hit
    rw [hp] at hpm
    obtain ⟨c, hc1, hc2, hcp⟩ := generate_products_price hpm
    rw [hup, hcp]
    exact (cents_price_bounds hc1 hc2).1
  have hne : ∀ o ∈ ds.orders,
      items_by_order ds.order_items o.order_id ≠ [] := by
    intro o hoo
    have := (hstep o hoo).1
    intro hnil
    rw [hnil] at this
    simp at this
  have hpos : ∀ o ∈ ds.orders,
      0 < order_total (items_by_order ds.order_items o.order_id) := by
    intro o hoo
    exact order_total_pos (hne o hoo)
      (fun it hit => ⟨((hstep o hoo).2.2.2 it hit).1, hprice o hoo it hit⟩)
  refine ⟨?_, hpos, ?_, ?_⟩
  · intro o hoo
    obtain ⟨it, hit⟩ := List.exists_mem_of_ne_nil _ (hne o hoo)
    exact ⟨it, hit, hprice o hoo it hit⟩
  · rw [hpay]
    unfold generate_payments
    exact genPaymentsAux_all 1 (fun o hoo => ne_of_gt (hpos o hoo))
  · have hmap : ds.payments.map (·.order_id) = ds.orders.map (·.order_id) := by
      rw [hpay]
      unfold generate_payments
      exact genPaymentsAux_all 1 (fun o hoo => ne_of_gt (hpos o hoo))
    have hlen : ds.payments.length = ds.orders.length := by
      have := congrArg List.length hmap
      simpa using this
    have hlen2 : (genPaymentsAux g ds.order_items ds.orders 1).length =
        ds.orders.length := by
      rw [hpay] at hlen
      unfold generate_payments at hlen
      exact hlen
    rw [hpay]
    unfold generate_payments
    rw [genPaymentsAux_ids, hlen2]

/-- Witness for `payments_one_per_order` at the smallest nondegenerate run. -/
theorem payments_one_per_order_witness :
    (∀ o ∈ ds1.orders,
      ∃ it ∈ items_by_order ds1.order_items o.order_id, 5 ≤ it.unit_price) ∧
    (∀ o ∈ ds1.orders, 0 < order_total (items_by_order ds1.order_items o.order_id)) ∧
    ds1.payments.map (·.order_id) = ds1.orders.map (·.order_id) ∧
    ds1.payments.map (·.payment_id) = List.range' 1 ds1.orders.length :=
  payments_one_per_order rng0 0 cfg1 ds1 (by with_unfolding_all decide)
    (by with_unfolding_all decide) (by decide)

theorem generate_customers_length (g : Rng) (count : ℕ) :
    (generate_customers g count).length = count := by
  simp [generate_customers]

theorem genOrdersAux_length {g : Rng} {now : ℤ} {customers : List Customer}
    {k idx : ℕ} {os : List Order} (h : genOrdersAux g now customers idx k = some os) :
    os.length = k := by
  have := congrArg List.length (genOrdersAux_spec h).1
  simpa using this

/-- C4 as stated is false at a concrete degenerate configuration: with
zero configured customers and a positive order count, generation fails
(random.choice over the empty customer list raises IndexError) instead of
producing collections. -/
theorem zero_customers_failure : generate_all rng0 0 ⟨0, 1, 1, 1⟩ = none := rfl

/-- C4 amended: a zero order count yields empty orders, order items and
payments without failure, and a zero product count (with nonzero customer
count and max items) yields empty order items and payments without
failure; but a zero customer count, or a zero max_items_per_order, makes
generation fail whenever the order count is positive. -/
theorem degenerate_configs :
    (∀ (g : Rng) (now : ℤ) (cfg : Config), cfg.num_orders = 0 →
      generate_all g now cfg =
        some ⟨generate_customers g cfg.num_customers,
              generate_products g cfg.num_products, [], [], []⟩) ∧
    (∀ (g : Rng) (now : ℤ) (cfg : Config), cfg.num_products = 0 →
      cfg.num_customers ≠ 0 → cfg.max_items_per_order ≠ 0 →
      ∃ ds, generate_all g now cfg = some ds ∧
        ds.order_items = [] ∧ ds.payments = []) ∧
    (∀ (g : Rng) (now : ℤ) (cfg : Config), cfg.num_customers = 0 →
      cfg.num_orders ≠ 0 → generate_all g now cfg = none) ∧
    (∀ (g : Rng) (now : ℤ) (cfg : Config), cfg.max_items_per_order = 0 →
      cfg.num_customers ≠ 0 → cfg.num_orders ≠ 0 →
      generate_all g now cfg = none) := by
  refine ⟨?_, ?_, ?_, ?_⟩
  · intro g now cfg h0
    obtain ⟨nc, np, nor, mi⟩ := cfg
    simp only at h0
    subst h0
    simp [generate_all, generate_orders, genOrdersAux, generate_order_items,
      genItemsAux, generate_payments, genPaymentsAux]
  · intro g now cfg h0 hnc hmi
    obtain ⟨nc, np, nor, mi⟩ := cfg
    simp only at h0 hnc hmi
    subst h0
    have hcust : generate_customers g nc ≠ [] := by
      have := generate_customers_length g nc
      intro hnil
      rw [hnil] at this
      simp at this
      omega
    obtain ⟨os, hos⟩ := genOrdersAux_isSome g now hcust nor 1
    have hitems : genItemsAux g [] mi os 1 1 = some [] :=
      genItemsAux_noProducts (by omega) os 1 1
    refine ⟨⟨generate_customers g nc, [], os, [], []⟩, ?_, rfl, rfl⟩
    have hprod0 : generate_products g 0 = [] := rfl
    simp [generate_all, generate_orders, hos, generate_order_items, hprod0,
      hitems, generate_payments, genPaymentsAux_noItems]
  · intro g now cfg h0 hno
    obtain ⟨nc, np, nor, mi⟩ := cfg
    simp only at h0 hno
    subst h0
    obtain ⟨k, rfl⟩ := Nat.exists_eq_succ_of_ne_zero hno
    have hcust : generate_customers g 0 = [] := rfl
    simp [generate_all, generate_orders, hcust, genOrdersAux_empty_none]
  · intro g now cfg h0 hnc hno
    obtain ⟨nc, np, nor, mi⟩ := cfg
    simp only at h0 hnc hno
    subst h0
    have hcust : generate_customers g nc ≠ [] := by
      have := generate_customers_length g nc
      intro hnil
      rw [hnil] at this
      simp at this
      omega
    obtain ⟨os, hos⟩ := genOrdersAux_isSome g now hcust nor 1
    have hoslen : os.length = nor := genOrdersAux_length hos
    cases os with
    | nil =>
      exfalso
      rw [List.length_nil] at hoslen
      omega
    | cons o rest =>
      simp [generate_all, generate_orders, hos, generate_order_items,
        genItemsAux_maxZero_none]

/-- Witness for `degenerate_configs`: the zero-order-count conjunct at a
concrete configuration. -/
theorem degenerate_configs_witness :
    generate_all rng0 0 ⟨2, 1, 0, 1⟩ =
      some ⟨generate_customers rng0 2, generate_products rng0 1, [], [], []⟩ :=
  degenerate_configs.1 rng0 0 ⟨2, 1, 0, 1⟩ rfl

theorem charVal_digitChar {d : ℕ} (h : d < 10) : charVal (digitChar d) = d := by
  interval_cases d <;> decide

theorem digitChar_toNat {d : ℕ} (h : d < 10) :
    48 ≤ (digitChar d).toNat ∧ (digitChar d).toNat ≤ 57 := by
  interval_cases d <;> decide

theorem natDigitsFuel_lt {fuel : ℕ} :
    ∀ {n d : ℕ}, d ∈ natDigitsFuel fuel n → d < 10 := by
  induction fuel with
  | zero => intro n d h; cases h
  | succ fuel ih =>
    intro n d h
    by_cases h0 : n = 0
    · simp [natDigitsFuel, h0] at h
    · simp only [natDigitsFuel, if_neg h0] at h
      rcases List.mem_cons.mp h with rfl | h
      · exact Nat.mod_lt _ (by omega)
      · exact ih h

theorem natDigitsFuel_foldr {fuel : ℕ} :
    ∀ {n : ℕ}, n ≤ fuel →
      (natDigitsFuel fuel n).foldr (fun d a => a * 10 + d) 0 = n := by
  induction fuel with
  | zero => intro n h; interval_cases n; rfl
  | succ fuel ih =>
    intro n h
    by_cases h0 : n = 0
    · simp [natDigitsFuel, h0]
    · simp only [natDigitsFuel, if_neg h0, List.foldr_cons]
      rw [ih (by omega : n / 10 ≤ fuel)]
      omega

theorem foldl_digits_congr :
    ∀ (l : List ℕ) (a : ℕ), (∀ d ∈ l, d < 10) →
      l.foldl (fun a d => a * 10 + charVal (digitChar d)) a =
        l.foldl (fun a d => a * 10 + d) a := by
  intro l
  induction l with
  | nil => intro a _; rfl
  | cons d t ih =>
    intro a h
    simp only [List.foldl_cons]
    rw [charVal_digitChar (h d (List.mem_cons_self d t))]
    exact ih _ (fun x hx => h x (List.mem_cons_of_mem _ hx))

theorem parseNatChars_natChars (n : ℕ) : parseNatChars (natChars n) = n := by
  by_cases h0 : n = 0
  · subst h0
    decide
  · unfold natChars parseNatChars
    rw [if_neg h0, ← List.map_reverse, List.foldl_map,
      foldl_digits_congr _ _ (fun d hd => natDigitsFuel_lt (List.mem_reverse.mp hd)),
      List.foldl_reverse]
    exact natDigitsFuel_foldr (le_refl n)

theorem natChars_digits {n : ℕ} {c : Char} (h : c ∈ natChars n) :
    48 ≤ c.toNat ∧ c.toNat ≤ 57 := by
  unfold natChars at h
  by_cases h0 : n = 0
  · rw [if_pos h0] at h
    rcases List.mem_singleton.mp h with rfl
    decide
  · rw [if_neg h0] at h
    obtain ⟨d, hd, rfl⟩ := List.mem_map.mp (List.mem_reverse.mp h)
    exact digitChar_toNat (natDigitsFuel_lt hd)

theorem natChars_ne_nil (n : ℕ) : natChars n ≠ [] := by
  unfold natChars
  by_cases h0 : n = 0
  · simp [h0]
  · rw [if_neg h0]
    cases hf : natDigitsFuel n n with
    | nil =>
      exfalso
      cases n with
      | zero => exact h0 rfl
      | succ m =>
        rw [show natDigitsFuel (m + 1) (m + 1) =
          (m + 1) % 10 :: natDigitsFuel m ((m + 1) / 10) from by
            simp [natDigitsFuel]] at hf
        cases hf
    | cons d t => simp [hf]

theorem natChars_ne_minus {n : ℕ} {c : Char} (h : c ∈ natChars n) : ¬c = '-' := by
  intro heq
  subst heq
  have := natChars_digits h
  simp at this

theorem natChars_ne_dot {n : ℕ} {c : Char} (h : c ∈ natChars n) : ¬c = '.' := by
  intro heq
  subst heq
  have := natChars_digits h
  simp at this

theorem parseIntChars_intChars (n : ℤ) : parseIntChars (intChars n) = n := by
  unfold intChars
  by_cases hneg : n < 0
  · rw [if_pos hneg]
    have hstep : parseIntChars ('-' :: natChars n.natAbs) =
        -(parseNatChars (natChars n.natAbs) : ℤ) := by
      simp [parseIntChars]
    rw [hstep, parseNatChars_natChars]
    omega
  · rw [if_neg hneg]
    cases hnc : natChars n.natAbs with
    | nil => exact absurd hnc (natChars_ne_nil _)
    | cons c cs =>
      simp only [parseIntChars]
      rw [if_neg (natChars_ne_minus (hnc ▸ List.mem_cons_self c cs)), ← hnc,
        parseNatChars_natChars]
      omega

theorem splitDot_append :
    ∀ (l r : List Char), (∀ c ∈ l, ¬c = '.') →
      splitDot (l ++ '.' :: r) = (l, r) := by
  intro l
  induction l with
  | nil => intro r _; simp [splitDot]
  | cons c t ih =>
    intro r h
    simp only [List.cons_append, splitDot,
      if_neg (h c (List.mem_cons_self c t)), List.append_eq]
    rw [ih r (fun x hx => h x (List.mem_cons_of_mem _ hx))]

theorem parseNatChars_cons_zero (cs : List Char) :
    parseNatChars ('0' :: cs) = parseNatChars cs := by
  unfold parseNatChars
  simp [List.foldl_cons, charVal]

theorem parseNatChars_pad2 {b : ℕ} (h : b < 100) : parseNatChars (pad2 b) = b := by
  unfold pad2
  by_cases h10 : b < 10
  · rw [if_pos h10, parseNatChars_cons_zero, parseNatChars_natChars]
  · rw [if_neg h10, parseNatChars_natChars]

theorem pad2_ne_minus {b : ℕ} {c : Char} (h : c ∈ pad2 b) : ¬c = '-' := by
  unfold pad2 at h
  split at h
  · rcases List.mem_cons.mp h with rfl | h
    · decide
    · exact natChars_ne_minus h
  · exact natChars_ne_minus h

theorem centsVal_decomp {a b : ℕ} (hb : b < 100) :
    centsVal (natChars a ++ '.' :: pad2 b) = (a * 100 + b : ℕ) := by
  unfold centsVal
  rw [splitDot_append _ _ (fun c hc => natChars_ne_dot hc)]
  rw [parseNatChars_natChars, parseNatChars_pad2 hb]

theorem parseCentsChars_centsChars (c : ℤ) :
    parseCentsChars (centsChars c) = c := by
  unfold centsChars
  by_cases hneg : c < 0
  · rw [if_pos hneg]
    have hstep : parseCentsChars ('-' :: (natChars (c.natAbs / 100) ++
        '.' :: pad2 (c.natAbs % 100))) =
        -(centsVal (natChars (c.natAbs / 100) ++ '.' :: pad2 (c.natAbs % 100))) := by
      simp [parseCentsChars]
    rw [hstep, centsVal_decomp (Nat.mod_lt _ (by omega))]
    omega
  · rw [if_neg hneg]
    cases hnc : natChars (c.natAbs / 100) with
    | nil => exact absurd hnc (natChars_ne_nil _)
    | cons c0 cs =>
      rw [List.cons_append]
      have hc0 : c0 ∈ natChars (c.natAbs / 100) := hnc ▸ List.mem_cons_self c0 cs
      simp only [parseCentsChars, if_neg (natChars_ne_minus hc0)]
      rw [← List.cons_append, ← hnc, centsVal_decomp (Nat.mod_lt _ (by omega))]
      omega

theorem coerce_render {v : Value} {ty : Ty} (h : typedVal v ty = true) :
    coerce ty (render v) = v := by
  cases v with
  | vint n =>
    cases ty with
    | integer =>
      show Value.vint (parseIntChars (String.data ⟨intChars n⟩)) = Value.vint n
      rw [show String.data ⟨intChars n⟩ = intChars n from rfl, parseIntChars_intChars]
    | real => simp [typedVal] at h
    | text => simp [typedVal] at h
  | vreal cents =>
    cases ty with
    | integer => simp [typedVal] at h
    | real =>
      show Value.vreal (parseCentsChars (String.data ⟨centsChars cents⟩)) = Value.vreal cents
      rw [show String.data ⟨centsChars cents⟩ = centsChars cents from rfl,
        parseCentsChars_centsChars]
    | text => simp [typedVal] at h
  | vtext s =>
    cases ty with
    | integer => simp [typedVal] at h
    | real => simp [typedVal] at h
    | text => rfl

theorem lookup_snd_eq {gf : String → String} :
    ∀ {l : List (String × String)} {c : String},
      (∀ pr ∈ l, pr.2 = gf pr.1) → c ∈ l.map Prod.fst →
      l.lookup c = some (gf c) := by
  intro l
  induction l with
  | nil => intro c _ hc; cases hc
  | cons pr t ih =>
    intro c hall hc
    obtain ⟨a, b⟩ := pr
    by_cases heq : c = a
    · subst heq
      have hb : b = gf c := hall (c, b) (List.mem_cons_self _ _)
      simp [List.lookup, hb]
    · have hc2 : c ∈ t.map Prod.fst := by
        rcases List.mem_cons.mp hc with h1 | h1
        · exact absurd h1 heq
        · exact h1
      have : (c == a) = false := beq_false_of_ne heq
      simp [List.lookup, this]
      exact ih (fun x hx => hall x (List.mem_cons_of_mem _ hx)) hc2

theorem zip_map_pairs {gf : String → String} :
    ∀ (fn : List String) (pr : String × String),
      pr ∈ fn.zip (fn.map gf) → pr.2 = gf pr.1 := by
  intro fn
  induction fn with
  | nil => intro pr h; cases h
  | cons a t ih =>
    intro pr h
    simp only [List.map_cons, List.zip_cons_cons] at h
    rcases List.mem_cons.mp h with rfl | h
    · rfl
    · exact ih pr h

theorem rowDict_map (fieldnames : List String) (gf : String → String)
    {c : String} (hc : c ∈ fieldnames) :
    rowDict fieldnames (fieldnames.map gf) c = some (gf c) := by
  unfold rowDict
  apply lookup_snd_eq
  · intro pr hpr
    exact zip_map_pairs fieldnames pr (List.mem_reverse.mp hpr)
  · rw [List.map_reverse, List.mem_reverse, List.map_fst_zip]
    · exact hc
    · simp

theorem mapM_cols {headers : List String} {tys : String → Ty}
    {r : String → Value}
    (hrec : ∀ c ∈ headers, typedVal (r c) (tys c) = true) :
    ∀ (cols : List String), (∀ c ∈ cols, c ∈ headers) →
      (cols.zip (cols.map tys)).mapM (fun ct =>
        (rowDict headers (headers.map (fun h => render (r h))) ct.1).map
          (coerce ct.2)) =
      some (cols.map (fun c => r c)) := by
  intro cols
  induction cols with
  | nil => intro _; rfl
  | cons c t ih =>
    intro hsub
    have hc : c ∈ headers := hsub c (List.mem_cons_self c t)
    simp only [List.map_cons, List.zip_cons_cons, List.mapM_cons]
    rw [rowDict_map headers (fun h => render (r h)) hc]
    rw [ih (fun x hx => hsub x (List.mem_cons_of_mem _ hx))]
    simp [coerce_render (hrec c hc)]

/-- C8: writing a collection of uniformly-shaped records with the CSV
writer under an ordered column list and re-parsing the file with the
importer against the same columns and the matching scalar coercions
yields exactly the original records (numeric fields coerced back from
their text form). -/
theorem csv_round_trip (headers : List String) (tys : String → Ty)
    (rows : List (String → Value))
    (hrec : ∀ r ∈ rows, ∀ c ∈ headers, typedVal (r c) (tys c) = true) :
    load_csv (write_csv rows headers) headers (headers.map tys) =
      some (rows.map (fun r => headers.map (fun c => r c))) := by
  unfold write_csv load_csv
  induction rows with
  | nil => rfl
  | cons r rs ih =>
    simp only [List.map_cons, List.mapM_cons]
    rw [mapM_cols (hrec r (List.mem_cons_self r rs)) headers (fun c hc => hc)]
    have ih2 := ih (fun x hx => hrec x (List.mem_cons_of_mem _ hx))
    simp only [List.map_cons] at ih2 ⊢
    rw [ih2]
    rfl

/-- Witness for `csv_round_trip` at a concrete three-column record. -/
theorem csv_round_trip_witness :
    load_csv (write_csv [rec1] ["id", "price", "name"]) ["id", "price", "name"]
      (["id", "price", "name"].map (fun c =>
        if c = "id" then Ty.integer else if c = "price" then Ty.real else Ty.text)) =
      some ([rec1].map (fun r => ["id", "price", "name"].map (fun c => r c))) :=
  csv_round_trip ["id", "price", "name"]
    (fun c => if c = "id" then Ty.integer else if c = "price" then Ty.real else Ty.text)
    [rec1] (by decide)

/-- C9: the importer inserts the five tables in dependency-respecting
order (customers and products before orders, orders before order_items
and payments), so a referentially consistent dataset bulk-loads into a
fresh store without error; and attempting to load order_items before
orders into a fresh store with foreign keys enabled fails with a
referential-integrity error, leaving no order_items rows inserted. -/
theorem ingest_dependency_order (cs : List Customer) (ps : List Product)
    (os : List Order) (its : List OrderItem) (pys : List Payment)
    (hOrd : ∀ o ∈ os, ∃ c ∈ cs, c.customer_id = o.customer_id)
    (hIt : ∀ it ∈ its, (∃ o ∈ os, o.order_id = it.order_id) ∧
      (∃ p ∈ ps, p.product_id = it.product_id))
    (hPay : ∀ py ∈ pys, ∃ o ∈ os, o.order_id = py.order_id)
    (hne : its ≠ []) :
    load_all emptyDB cs ps os its pys = .ok ⟨cs, ps, os, its, pys⟩ ∧
    tryInsert emptyDB (fun db => insert_order_items db its) =
      (emptyDB, some DbError.fkViolation) := by
  constructor
  · have hc3 : os.all (orderFkOk ⟨cs, ps, [], [], []⟩) = true := by
      rw [List.all_eq_true]
      intro o ho
      obtain ⟨c, hc, hceq⟩ := hOrd o ho
      unfold orderFkOk
      rw [List.any_eq_true]
      exact ⟨c, hc, by simp [hceq]⟩
    have h3 : insert_orders ⟨cs, ps, [], [], []⟩ os = .ok ⟨cs, ps, os, [], []⟩ := by
      unfold insert_orders
      rw [if_pos hc3]
      rfl
    have hc4 : its.all (orderItemFkOk ⟨cs, ps, os, [], []⟩) = true := by
      rw [List.all_eq_true]
      intro it hit
      obtain ⟨⟨o, ho, hoe⟩, ⟨p, hp, hpe⟩⟩ := hIt it hit
      unfold orderItemFkOk
      rw [Bool.and_eq_true, List.any_eq_true, List.any_eq_true]
      exact ⟨⟨o, ho, by simp [hoe]⟩, ⟨p, hp, by simp [hpe]⟩⟩
    have h4 : insert_order_items ⟨cs, ps, os, [], []⟩ its =
        .ok ⟨cs, ps, os, its, []⟩ := by
      unfold insert_order_items
      rw [if_pos hc4]
      rfl
    have hc5 : pys.all (paymentFkOk ⟨cs, ps, os, its, []⟩) = true := by
      rw [List.all_eq_true]
      intro py hpy
      obtain ⟨o, ho, hoe⟩ := hPay py hpy
      unfold paymentFkOk
      rw [List.any_eq_true]
      exact ⟨o, ho, by simp [hoe]⟩
    have h5 : insert_payments ⟨cs, ps, os, its, []⟩ pys =
        .ok ⟨cs, ps, os, its, pys⟩ := by
      unfold insert_payments
      rw [if_pos hc5]
      rfl
    simp [load_all, bind, Except.bind, insert_customers, insert_products,
      emptyDB, h3, h4, h5]
  · cases its with
    | nil => exact absurd rfl hne
    | cons it rest =>
      have hall : (it :: rest).all (orderItemFkOk emptyDB) = false := by
        simp [List.all_cons, show orderItemFkOk emptyDB it = false from rfl]
      have hres : insert_order_items emptyDB (it :: rest) =
          .error DbError.fkViolation := by
        unfold insert_order_items
        rw [hall]
        rfl
      unfold tryInsert
      simp [hres]

/-- Witness for `ingest_dependency_order` at the smallest generated
dataset. -/
theorem ingest_dependency_order_witness :
    load_all emptyDB ds1.customers ds1.products ds1.orders ds1.order_items
        ds1.payments =
      .ok ⟨ds1.customers, ds1.products, ds1.orders, ds1.order_items, ds1.payments⟩ ∧
    tryInsert emptyDB (fun db => insert_order_items db ds1.order_items) =
      (emptyDB, some DbError.fkViolation) :=
  ingest_dependency_order ds1.customers ds1.products ds1.orders ds1.order_items
    ds1.payments (by decide) (by decide) (by decide) (by decide)

end Ecom
